import Mathlib

/-!
Shallow embedding of the `gl_latest_version` lookup plugin
(`ansible_collections/validatrium/genlayer/plugins/lookup/gl_latest_version.py`).

The plugin performs one HTTP GET (modelled as an `Except String (List Nat)`
input: either a transport failure message or the raw response bytes), decodes
the body as UTF-8 with `errors='ignore'`, scans the text for occurrences of
the pattern `"name":\s*"([^"]+)"`, extracts from each captured name the first
path segment matching `/(v[^/]+)/`, fails if no version was extracted,
deduplicates, sorts descending by a tokenized key (strip the leading `v`,
split on `.` or `-`, each token an `int` when Python's `int()` accepts it,
else the token string), and returns the singleton list holding the first
element of the sorted list.

Python's `sorted` raises `TypeError` when it compares an `int` token with a
`str` token; comparisons are modelled as `Option Ordering` where `none`
stands for that runtime failure, and the sort is the insertion sort that
propagates the first failed comparison.
-/

set_option maxRecDepth 4000

namespace GlVersion

/-- The fixed listing URL of the source (kept for reference; the fetch itself
is modelled as the `Except` input of `run`). -/
def url : String := "https://storage.googleapis.com/storage/v1/b/gh-af/o?prefix=genlayer-node/bin/amd64"

/-- ASCII whitespace recognised by the regex class `\s`. -/
def isPySpace (c : Char) : Bool :=
  c == ' ' || c == '\t' || c == '\n' || c == '\r' || c == '\x0b' || c == '\x0c'

/-! ### UTF-8 decoding (`bytes.decode('utf-8', errors=...)`) -/

inductive DecodeMode where
  | strict
  | ignore
deriving DecidableEq

/-- A UTF-8 continuation byte. -/
def isCont (b : Nat) : Bool := decide (0x80 ≤ b ∧ b ≤ 0xBF)

/-- Valid range for the first continuation byte of a multi-byte sequence,
which depends on the lead byte (excludes overlong forms, surrogates and
code points above U+10FFFF). -/
def cont1ok (b c1 : Nat) : Bool :=
  if b = 0xE0 then decide (0xA0 ≤ c1 ∧ c1 ≤ 0xBF)
  else if b = 0xED then decide (0x80 ≤ c1 ∧ c1 ≤ 0x9F)
  else if b = 0xF0 then decide (0x90 ≤ c1 ∧ c1 ≤ 0xBF)
  else if b = 0xF4 then decide (0x80 ≤ c1 ∧ c1 ≤ 0x8F)
  else isCont c1

/-- Decode one scalar value from lead byte `b` followed by `rest`; returns
the code point and the number of continuation bytes consumed, or `none` on
an invalid sequence. -/
def utf8DecodeOne (b : Nat) (rest : List Nat) : Option (Nat × Nat) :=
  if b < 0x80 then some (b, 0)
  else if 0xC2 ≤ b ∧ b ≤ 0xDF then
    match rest with
    | c1 :: _ => if isCont c1 then some ((b - 0xC0) * 64 + (c1 - 0x80), 1) else none
    | [] => none
  else if 0xE0 ≤ b ∧ b ≤ 0xEF then
    match rest with
    | c1 :: c2 :: _ =>
        if cont1ok b c1 && isCont c2 then
          some ((b - 0xE0) * 4096 + (c1 - 0x80) * 64 + (c2 - 0x80), 2)
        else none
    | _ => none
  else if 0xF0 ≤ b ∧ b ≤ 0xF4 then
    match rest with
    | c1 :: c2 :: c3 :: _ =>
        if cont1ok b c1 && isCont c2 && isCont c3 then
          some ((b - 0xF0) * 262144 + (c1 - 0x80) * 4096 + (c2 - 0x80) * 64 + (c3 - 0x80), 3)
        else none
    | _ => none
  else none

/-- On an invalid sequence, `errors='ignore'` skips the maximal valid
subpart: the lead byte plus however many continuation bytes were valid
before the failure (this returns the continuation count). -/
def utf8SkipExtra (b : Nat) (rest : List Nat) : Nat :=
  if 0xE0 ≤ b ∧ b ≤ 0xEF then
    match rest with
    | c1 :: _ => if cont1ok b c1 then 1 else 0
    | [] => 0
  else if 0xF0 ≤ b ∧ b ≤ 0xF4 then
    match rest with
    | c1 :: c2 :: _ => if cont1ok b c1 then (if isCont c2 then 2 else 1) else 0
    | c1 :: [] => if cont1ok b c1 then 1 else 0
    | [] => 0
  else 0

/-- Fuel-indexed decoding loop; each step consumes at least one byte, so
fuel equal to the byte count (as supplied by `decodeUtf8`) never runs out. -/
def decodeGo (mode : DecodeMode) : Nat → List Nat → Except Unit (List Char)
  | _, [] => Except.ok []
  | 0, _ :: _ => Except.ok []
  | fuel + 1, b :: rest =>
      match utf8DecodeOne b rest with
      | some (cp, k) =>
          (decodeGo mode fuel (rest.drop k)).map (fun cs => Char.ofNat cp :: cs)
      | none =>
          match mode with
          | DecodeMode.strict => Except.error ()
          | DecodeMode.ignore => decodeGo mode fuel (rest.drop (utf8SkipExtra b rest))

/-- `bytes.decode('utf-8', errors=mode)`: `strict` fails on the first invalid
sequence, `ignore` drops invalid bytes and continues. -/
def decodeUtf8 (mode : DecodeMode) (bytes : List Nat) : Except Unit (List Char) :=
  decodeGo mode bytes.length bytes

def isOkE {ε α : Type} : Except ε α → Bool
  | Except.ok _ => true
  | Except.error _ => false

/-- UTF-8 encoding of one scalar value (used to build concrete byte inputs). -/
def encodeChar (c : Char) : List Nat :=
  let n := c.toNat
  if n < 128 then [ n]
  else if n < 2048 then [ 192 + n / 64, 128 + n % 64]
  else if n < 65536 then [ 224 + n / 4096, 128 + n / 64 % 64, 128 + n % 64]
  else [ 240 + n / 262144, 128 + n / 4096 % 64, 128 + n / 64 % 64, 128 + n % 64]

def encodeUtf8 (s : List Char) : List Nat := s.foldr (fun c acc => encodeChar c ++ acc) []

def bytesOf (s : String) : List Nat := encodeUtf8 s.toList

/-! ### `re.findall(r'"name":\s*"([^"]+)"', data)` -/

/-- The literal part `"name":` of the pattern. -/
def nameKey : List Char := [ '"', 'n', 'a', 'm', 'e', '"', ':' ]

/-- Fuel-indexed scan for all non-overlapping matches of
`"name":\s*"([^"]+)"`, returning the captures.  At each position the literal
is matched, then `\s*` (greedy; backtracking cannot help because no
whitespace character is a quote), then the quoted capture (`[^"]+` greedy
and necessarily ending at the next quote).  On failure the scan advances one
character; after a match it resumes right after the closing quote.  Each
step consumes at least one character, so fuel equal to the length (as
supplied by `findNames`) never runs out. -/
def findNamesGo : Nat → List Char → List (List Char)
  | 0, _ => []
  | _ + 1, [] => []
  | fuel + 1, c :: rest =>
      if nameKey.isPrefixOf (c :: rest) then
        match ((c :: rest).drop 7).dropWhile isPySpace with
        | '"' :: r2 =>
            let cap := r2.takeWhile (fun x => decide (x ≠ '"'))
            match r2.dropWhile (fun x => decide (x ≠ '"')) with
            | _ :: afterQuote =>
                if cap.isEmpty then findNamesGo fuel rest
                else cap :: findNamesGo fuel afterQuote
            | [] => findNamesGo fuel rest
        | _ => findNamesGo fuel rest
      else findNamesGo fuel rest

def findNames (data : List Char) : List (List Char) := findNamesGo data.length data

/-! ### `re.search(r'/(v[^/]+)/', n)` -/

/-- Attempt the pattern `/(v[^/]+)/` anchored at the start of `s`; the
capture is `v` plus the maximal nonempty run of non-`/` characters, which
must be terminated by a `/`. -/
def takeSeg : List Char → Option (List Char)
  | [] => none
  | [ _] => none
  | c1 :: c2 :: r =>
      if c1 = '/' ∧ c2 = 'v' then
        let sp := r.takeWhile (fun x => decide (x ≠ '/'))
        if sp.isEmpty then none
        else if (r.dropWhile (fun x => decide (x ≠ '/'))).isEmpty then none
        else some ( 'v' :: sp)
      else none

/-- Leftmost match of `/(v[^/]+)/`: try each start position left to right. -/
def searchSeg : List Char → Option (List Char)
  | [] => none
  | c :: rest =>
      match takeSeg (c :: rest) with
      | some v => some v
      | none => searchSeg rest

/-! ### `ver_key`: tokenization and Python `int()` -/

/-- `re.split(r'[\.-]', core)`: split on every `.` or `-`, keeping empty
fields. -/
def splitRun (acc : List Char) : List Char → List (List Char)
  | [] => [ acc.reverse]
  | c :: rest =>
      if c == '.' || c == '-' then acc.reverse :: splitRun [] rest
      else splitRun (c :: acc) rest

def stripWs (l : List Char) : List Char :=
  ((l.dropWhile isPySpace).reverse.dropWhile isPySpace).reverse

def digitVal (c : Char) : Nat := c.toNat - '0'.toNat

/-- Digits of a Python integer literal after the first: decimal digits with
single underscores allowed between digits (PEP 515). -/
def digitsAux : Nat → List Char → Option Nat
  | acc, [] => some acc
  | acc, '_' :: c :: rest =>
      if c.isDigit then digitsAux (acc * 10 + digitVal c) rest else none
  | _, [ '_'] => none
  | acc, c :: rest =>
      if c.isDigit then digitsAux (acc * 10 + digitVal c) rest else none

def parseDigits : List Char → Option Nat
  | [] => none
  | c :: rest => if c.isDigit then digitsAux (digitVal c) rest else none

/-- Python `int(p)` on a string: optional surrounding whitespace, optional
single sign, nonempty digit sequence (ASCII model). -/
def pyInt (l : List Char) : Option Int :=
  match stripWs l with
  | '+' :: rest => (parseDigits rest).map (fun n => (n : Int))
  | '-' :: rest => (parseDigits rest).map (fun n => -(n : Int))
  | rest => (parseDigits rest).map (fun n => (n : Int))

/-- One token of a version key: `int(p)` when it parses, else the string. -/
inductive Tok where
  | num (i : Int)
  | str (s : List Char)
deriving DecidableEq

def tokOf (p : List Char) : Tok :=
  match pyInt p with
  | some i => Tok.num i
  | none => Tok.str p

/-- `ver_key(v)`: strip the leading character, split the core on `.`/`-`,
coerce each part with `int()` when possible. -/
def verKey (v : List Char) : List Tok := (splitRun [] (v.drop 1)).map tokOf

/-! ### Python comparison of keys (`list.__lt__` over mixed tokens) -/

def cmpNat (a b : Nat) : Ordering := if a < b then .lt else if a = b then .eq else .gt

def cmpInt (a b : Int) : Ordering := if a < b then .lt else if a = b then .eq else .gt

/-- Python `str` comparison: lexicographic by code points. -/
def cmpStr : List Char → List Char → Ordering
  | [], [] => .eq
  | [], _ :: _ => .lt
  | _ :: _, [] => .gt
  | a :: as, b :: bs =>
      match cmpNat a.toNat b.toNat with
      | .eq => cmpStr as bs
      | o => o

/-- Comparing one token pair: `int` vs `str` raises `TypeError` in Python,
modelled as `none`. -/
def cmpTok : Tok → Tok → Option Ordering
  | Tok.num a, Tok.num b => some (cmpInt a b)
  | Tok.str a, Tok.str b => some (cmpStr a b)
  | _, _ => none

/-- Python list comparison: token-wise left to right, a strict prefix is
smaller; the first unequal position decides, and deciding it across
mismatched token types fails (`none`). -/
def cmpKey : List Tok → List Tok → Option Ordering
  | [], [] => some .eq
  | [], _ :: _ => some .lt
  | _ :: _, [] => some .gt
  | a :: as, b :: bs =>
      match cmpTok a b with
      | none => none
      | some .eq => cmpKey as bs
      | some .lt => some .lt
      | some .gt => some .gt

/-! ### `sorted(set(versions), key=ver_key, reverse=True)` -/

/-- Insert into a descending-sorted list; the element moves past every entry
it is not strictly greater than (so equal keys keep their relative order),
and a failed token comparison aborts the sort (`TypeError`). -/
def insertDesc (v : List Char) : List (List Char) → Option (List (List Char))
  | [] => some [ v]
  | w :: ws =>
      match cmpKey (verKey v) (verKey w) with
      | none => none
      | some .gt => some (v :: w :: ws)
      | some .eq => (insertDesc v ws).map (fun r => w :: r)
      | some .lt => (insertDesc v ws).map (fun r => w :: r)

def sortDescAux : List (List Char) → List (List Char) → Option (List (List Char))
  | acc, [] => some acc
  | acc, v :: vs =>
      match insertDesc v acc with
      | none => none
      | some acc2 => sortDescAux acc2 vs

def sortDesc (l : List (List Char)) : Option (List (List Char)) := sortDescAux [] l

/-- Every ordered pair of extracted keys can be compared without a
`TypeError`. -/
def allComparable (l : List (List Char)) : Bool :=
  l.all (fun a => l.all (fun b => (cmpKey (verKey a) (verKey b)).isSome))

/-! ### The lookup itself -/

inductive RunError where
  | fetchFailed (cause : String)
  | noVersionsFound
  | typeError
deriving DecidableEq

def errMessage : RunError → String
  | RunError.fetchFailed cause => "Failed to fetch versions: " ++ cause
  | RunError.noVersionsFound => "No versions found in GCS listing."
  | RunError.typeError => "TypeError: unorderable token types"

/-- The decoded body text of a byte response (total because `ignore`
decoding never fails; see `decodeGo_ignore_isOk`). -/
def decodedText (bytes : List Nat) : List Char :=
  match decodeUtf8 DecodeMode.ignore bytes with
  | Except.ok s => s
  | Except.error _ => []

/-- The extraction pipeline: all regex captures of `"name"` values, each
reduced to its first `/(v[^/]+)/` segment; names without one are dropped. -/
def extractVersions (data : List Char) : List (List Char) :=
  (findNames data).filterMap searchSeg

/-- The tail of `LookupModule.run` after extraction: fail on an empty
candidate list, else sort the deduplicated candidates descending and return
the singleton holding the first. -/
def resolveVersions (versions : List (List Char)) : Except RunError (List (List Char)) :=
  if versions.isEmpty then Except.error RunError.noVersionsFound
  else
    match sortDesc versions.dedup with
    | none => Except.error RunError.typeError
    | some sorted => Except.ok [ sorted.headD []]

/-- `LookupModule.run`: the fetch result is the input; a transport failure
(and a hypothetical decode failure, which sits inside the same `try`) become
the "Failed to fetch versions" error, otherwise the body is decoded,
scanned and resolved. -/
def run (fetch : Except String (List Nat)) : Except RunError (List (List Char)) :=
  match fetch with
  | Except.error cause => Except.error (RunError.fetchFailed cause)
  | Except.ok bytes =>
      match decodeUtf8 DecodeMode.ignore bytes with
      | Except.error _ => Except.error (RunError.fetchFailed "UnicodeDecodeError")
      | Except.ok data => resolveVersions (extractVersions data)

/-! ### Concrete listing bodies used in the claim instances -/

def c5Body : String := "\"name\": \"genlayer-node/bin/amd64/v0.3.9/node\", \"name\": \"genlayer-node/bin/amd64/v0.3.10/node\", \"name\": \"genlayer-node/bin/amd64/v0.3.2/node\""

def c7Body : String := "\"name\": \"genlayer-node/bin/amd64/v1.0.0/node\", \"name\": \"genlayer-node/bin/amd64/v1.0.0-rc1/node\""

def c1Bad : String := "\"name\": \"a/v0/b\", \"name\": \"a/vx/c\""

def c2Bad : String := "\"name\": \"a/v1.rc/b\", \"name\": \"a/v1.0/c\""

def c1Good : String := "\"name\": \"a/v2.1/b\", \"name\": \"a/v2.0/c\""

def c2Good : String := "\"name\": \"a/v7/b\""

def c3Empty : String := "\"count\": \"none here\""

def c9Bytes : List Nat := [ 0x68, 0x69, 0xFF, 0xE2, 0x28, 0x21]

def c10Body : String := "\"name\": \"x/v4.2/y\""

/-! ## Properties of the token comparison -/

theorem char_toNat_inj {a b : Char} (h : a.toNat = b.toNat) : a = b :=
  Char.eq_of_val_eq (UInt32.toNat.inj h)

theorem cmpNat_lt_iff (a b : Nat) : cmpNat a b = .lt ↔ a < b := by
  unfold cmpNat; split_ifs <;> simp_all <;> omega

theorem cmpNat_eq_iff (a b : Nat) : cmpNat a b = .eq ↔ a = b := by
  unfold cmpNat; split_ifs <;> simp_all <;> omega

theorem cmpNat_gt_iff (a b : Nat) : cmpNat a b = .gt ↔ b < a := by
  unfold cmpNat; split_ifs <;> simp_all <;> omega

theorem cmpInt_lt_iff (a b : Int) : cmpInt a b = .lt ↔ a < b := by
  unfold cmpInt; split_ifs <;> simp_all <;> omega

theorem cmpInt_eq_iff (a b : Int) : cmpInt a b = .eq ↔ a = b := by
  unfold cmpInt; split_ifs <;> simp_all <;> omega

theorem cmpInt_gt_iff (a b : Int) : cmpInt a b = .gt ↔ b < a := by
  unfold cmpInt; split_ifs <;> simp_all <;> omega

theorem cmpStr_cons (a b : Char) (as bs : List Char) :
    cmpStr (a :: as) (b :: bs) =
      (match cmpNat a.toNat b.toNat with
       | .eq => cmpStr as bs
       | o => o) := rfl

theorem cmpStr_cons_lt {a b : Char} (as bs : List Char)
    (h : cmpNat a.toNat b.toNat = .lt) : cmpStr (a :: as) (b :: bs) = .lt := by
  rw [cmpStr_cons, h]

theorem cmpStr_cons_eq {a b : Char} (as bs : List Char)
    (h : cmpNat a.toNat b.toNat = .eq) : cmpStr (a :: as) (b :: bs) = cmpStr as bs := by
  rw [cmpStr_cons, h]

theorem cmpStr_cons_gt {a b : Char} (as bs : List Char)
    (h : cmpNat a.toNat b.toNat = .gt) : cmpStr (a :: as) (b :: bs) = .gt := by
  rw [cmpStr_cons, h]

theorem cmpStr_eq_iff (s t : List Char) : cmpStr s t = .eq ↔ s = t := by
  induction s generalizing t with
  | nil => cases t <;> simp [cmpStr]
  | cons a as ih =>
      cases t with
      | nil => simp [cmpStr]
      | cons b bs =>
          rcases h : cmpNat a.toNat b.toNat with _ | _ | _
          · rw [cmpStr_cons_lt as bs h]
            constructor
            · intro hc; cases hc
            · rintro ⟨rfl, rfl⟩; exfalso
              rw [cmpNat_lt_iff] at h; exact lt_irrefl _ h
          · rw [cmpStr_cons_eq as bs h, ih]
            have hb : a = b := char_toNat_inj ((cmpNat_eq_iff _ _).mp h)
            subst hb; simp
          · rw [cmpStr_cons_gt as bs h]
            constructor
            · intro hc; cases hc
            · rintro ⟨rfl, rfl⟩; exfalso
              rw [cmpNat_gt_iff] at h; exact lt_irrefl _ h

theorem cmpNat_swap (a b : Nat) : cmpNat b a = (cmpNat a b).swap := by
  rcases lt_trichotomy a b with h | h | h
  · rw [(cmpNat_lt_iff a b).mpr h, (cmpNat_gt_iff b a).mpr h]; rfl
  · subst h; rw [(cmpNat_eq_iff a a).mpr rfl]; rfl
  · rw [(cmpNat_gt_iff a b).mpr h, (cmpNat_lt_iff b a).mpr h]; rfl

theorem cmpStr_swap (s t : List Char) : cmpStr t s = (cmpStr s t).swap := by
  induction s generalizing t with
  | nil => cases t <;> simp [cmpStr, Ordering.swap]
  | cons a as ih =>
      cases t with
      | nil => simp [cmpStr, Ordering.swap]
      | cons b bs =>
          rcases h : cmpNat a.toNat b.toNat with _ | _ | _
          · have h2 : cmpNat b.toNat a.toNat = .gt := by rw [cmpNat_swap, h]; rfl
            rw [cmpStr_cons_lt as bs h, cmpStr_cons_gt bs as h2]; rfl
          · have h2 : cmpNat b.toNat a.toNat = .eq := by rw [cmpNat_swap, h]; rfl
            rw [cmpStr_cons_eq as bs h, cmpStr_cons_eq bs as h2, ih]
          · have h2 : cmpNat b.toNat a.toNat = .lt := by rw [cmpNat_swap, h]; rfl
            rw [cmpStr_cons_gt as bs h, cmpStr_cons_lt bs as h2]; rfl

theorem cmpStr_trans_gt {a b c : List Char} (h1 : cmpStr a b = .gt)
    (h2 : cmpStr b c = .gt) : cmpStr a c = .gt := by
  induction a generalizing b c with
  | nil =>
      exfalso
      cases b <;> simp [cmpStr] at h1
  | cons x xs ih =>
      cases b with
      | nil => cases c <;> simp [cmpStr] at h2
      | cons y ys =>
          cases c with
          | nil => simp [cmpStr]
          | cons z zs =>
              rcases hxy : cmpNat x.toNat y.toNat with _ | _ | _
              · rw [cmpStr_cons_lt xs ys hxy] at h1; cases h1
              · have hx : x = y := char_toNat_inj ((cmpNat_eq_iff _ _).mp hxy)
                subst hx
                rw [cmpStr_cons_eq xs ys hxy] at h1
                rcases hyz : cmpNat x.toNat z.toNat with _ | _ | _
                · rw [cmpStr_cons_lt ys zs hyz] at h2; cases h2
                · rw [cmpStr_cons_eq ys zs hyz] at h2
                  rw [cmpStr_cons_eq xs zs hyz]
                  exact ih h1 h2
                · exact cmpStr_cons_gt xs zs hyz
              · rcases hyz : cmpNat y.toNat z.toNat with _ | _ | _
                · rw [cmpStr_cons_lt ys zs hyz] at h2; cases h2
                · have hy : y = z := char_toNat_inj ((cmpNat_eq_iff _ _).mp hyz)
                  subst hy
                  exact cmpStr_cons_gt xs zs hxy
                · have hlt : z.toNat < x.toNat :=
                    lt_trans ((cmpNat_gt_iff _ _).mp hyz) ((cmpNat_gt_iff _ _).mp hxy)
                  exact cmpStr_cons_gt xs zs ((cmpNat_gt_iff _ _).mpr hlt)

theorem cmpTok_refl (t : Tok) : cmpTok t t = some .eq := by
  cases t with
  | num a => simp [cmpTok, cmpInt_eq_iff]
  | str s => simp [cmpTok, cmpStr_eq_iff]

theorem cmpTok_eq_iff (t u : Tok) : cmpTok t u = some .eq ↔ t = u := by
  cases t <;> cases u <;> simp [cmpTok, cmpInt_eq_iff, cmpStr_eq_iff]

theorem cmpInt_swap (a b : Int) : cmpInt b a = (cmpInt a b).swap := by
  rcases lt_trichotomy a b with h | h | h
  · rw [(cmpInt_lt_iff a b).mpr h, (cmpInt_gt_iff b a).mpr h]; rfl
  · subst h; rw [(cmpInt_eq_iff a a).mpr rfl]; rfl
  · rw [(cmpInt_gt_iff a b).mpr h, (cmpInt_lt_iff b a).mpr h]; rfl

theorem cmpTok_swap {t u : Tok} {o : Ordering} (h : cmpTok t u = some o) :
    cmpTok u t = some o.swap := by
  cases t with
  | num a =>
      cases u with
      | num b =>
          simp only [cmpTok, Option.some.injEq] at h ⊢
          rw [cmpInt_swap, h]
      | str s => cases h
  | str s =>
      cases u with
      | num b => cases h
      | str s2 =>
          simp only [cmpTok, Option.some.injEq] at h ⊢
          rw [cmpStr_swap, h]

theorem cmpTok_trans_gt {t u w : Tok} (h1 : cmpTok t u = some .gt)
    (h2 : cmpTok u w = some .gt) : cmpTok t w = some .gt := by
  cases t <;> cases u <;> cases w <;>
    simp only [cmpTok, Option.some.injEq, reduceCtorEq] at h1 h2 ⊢
  · rw [cmpInt_gt_iff] at h1 h2 ⊢; omega
  · exact cmpStr_trans_gt h1 h2

theorem cmpKey_cons (t u : Tok) (ts us : List Tok) :
    cmpKey (t :: ts) (u :: us) =
      (match cmpTok t u with
       | none => none
       | some .eq => cmpKey ts us
       | some .lt => some .lt
       | some .gt => some .gt) := rfl

theorem cmpKey_cons_none {t u : Tok} (ts us : List Tok) (h : cmpTok t u = none) :
    cmpKey (t :: ts) (u :: us) = none := by rw [cmpKey_cons, h]

theorem cmpKey_cons_eqtok {t u : Tok} (ts us : List Tok) (h : cmpTok t u = some .eq) :
    cmpKey (t :: ts) (u :: us) = cmpKey ts us := by rw [cmpKey_cons, h]

theorem cmpKey_cons_lttok {t u : Tok} (ts us : List Tok) (h : cmpTok t u = some .lt) :
    cmpKey (t :: ts) (u :: us) = some .lt := by rw [cmpKey_cons, h]

theorem cmpKey_cons_gttok {t u : Tok} (ts us : List Tok) (h : cmpTok t u = some .gt) :
    cmpKey (t :: ts) (u :: us) = some .gt := by rw [cmpKey_cons, h]

theorem cmpKey_refl (k : List Tok) : cmpKey k k = some .eq := by
  induction k with
  | nil => rfl
  | cons t ts ih => rw [cmpKey_cons_eqtok ts ts (cmpTok_refl t), ih]

theorem cmpKey_eq_iff (k l : List Tok) : cmpKey k l = some .eq ↔ k = l := by
  induction k generalizing l with
  | nil => cases l <;> simp [cmpKey]
  | cons t ts ih =>
      cases l with
      | nil => simp [cmpKey]
      | cons u us =>
          rcases h : cmpTok t u with _ | o
          · rw [cmpKey_cons_none ts us h]
            constructor
            · intro hc; cases hc
            · rintro ⟨rfl, rfl⟩; rw [cmpTok_refl] at h; cases h
          · cases o
            · rw [cmpKey_cons_lttok ts us h]
              constructor
              · intro hc; cases hc
              · rintro ⟨rfl, rfl⟩; rw [cmpTok_refl] at h
                cases h
            · rw [cmpKey_cons_eqtok ts us h, ih]
              have := (cmpTok_eq_iff t u).mp h
              subst this; simp
            · rw [cmpKey_cons_gttok ts us h]
              constructor
              · intro hc; cases hc
              · rintro ⟨rfl, rfl⟩; rw [cmpTok_refl] at h
                cases h

theorem cmpKey_swap {k l : List Tok} {o : Ordering} (h : cmpKey k l = some o) :
    cmpKey l k = some o.swap := by
  induction k generalizing l o with
  | nil =>
      cases l with
      | nil => simp [cmpKey] at h ⊢; subst h; rfl
      | cons u us => simp [cmpKey] at h ⊢; subst h; rfl
  | cons t ts ih =>
      cases l with
      | nil => simp [cmpKey] at h ⊢; subst h; rfl
      | cons u us =>
          rcases h2 : cmpTok t u with _ | o2
          · rw [cmpKey_cons_none ts us h2] at h; cases h
          · have h3 := cmpTok_swap h2
            cases o2
            · rw [cmpKey_cons_lttok ts us h2] at h; cases h
              rw [cmpKey_cons_gttok us ts h3]; rfl
            · rw [cmpKey_cons_eqtok ts us h2] at h
              rw [cmpKey_cons_eqtok us ts h3]
              exact ih h
            · rw [cmpKey_cons_gttok ts us h2] at h; cases h
              rw [cmpKey_cons_lttok us ts h3]; rfl

theorem cmpKey_trans_gt {a b c : List Tok} (h1 : cmpKey a b = some .gt)
    (h2 : cmpKey b c = some .gt) : cmpKey a c = some .gt := by
  induction a generalizing b c with
  | nil =>
      exfalso
      cases b with
      | nil => simp [cmpKey] at h1
      | cons u us => simp [cmpKey] at h1
  | cons t ts ih =>
      cases b with
      | nil =>
          exfalso
          cases c with
          | nil => simp [cmpKey] at h2
          | cons w ws => simp [cmpKey] at h2
      | cons u us =>
          cases c with
          | nil => simp [cmpKey]
          | cons w ws =>
              rcases htu : cmpTok t u with _ | o1
              · rw [cmpKey_cons_none ts us htu] at h1; cases h1
              · cases o1
                · rw [cmpKey_cons_lttok ts us htu] at h1; cases h1
                · have ht : t = u := (cmpTok_eq_iff _ _).mp htu
                  subst ht
                  rw [cmpKey_cons_eqtok ts us htu] at h1
                  rcases htw : cmpTok t w with _ | o2
                  · rw [cmpKey_cons_none us ws htw] at h2; cases h2
                  · cases o2
                    · rw [cmpKey_cons_lttok us ws htw] at h2; cases h2
                    · rw [cmpKey_cons_eqtok us ws htw] at h2
                      rw [cmpKey_cons_eqtok ts ws htw]
                      exact ih h1 h2
                    · exact cmpKey_cons_gttok ts ws htw
                · rcases huw : cmpTok u w with _ | o2
                  · rw [cmpKey_cons_none us ws huw] at h2; cases h2
                  · cases o2
                    · rw [cmpKey_cons_lttok us ws huw] at h2; cases h2
                    · have hu : u = w := (cmpTok_eq_iff _ _).mp huw
                      subst hu
                      exact cmpKey_cons_gttok ts ws htu
                    · exact cmpKey_cons_gttok ts ws (cmpTok_trans_gt htu huw)

/-- Transitivity of the not-below relation on keys, given that the two base
comparisons are defined. -/
theorem key_ge_trans {kx ky kz : List Tok}
    (hxy : cmpKey kx ky ≠ some .lt) (hyz : cmpKey ky kz ≠ some .lt)
    (d1 : (cmpKey kx ky).isSome) (d2 : (cmpKey ky kz).isSome) :
    cmpKey kx kz ≠ some .lt := by
  rcases h1 : cmpKey kx ky with _ | o1
  · rw [h1] at d1; cases d1
  · cases o1
    · exact absurd h1 hxy
    · have : kx = ky := (cmpKey_eq_iff _ _).mp h1
      subst this; exact hyz
    · rcases h2 : cmpKey ky kz with _ | o2
      · rw [h2] at d2; cases d2
      · cases o2
        · exact absurd h2 hyz
        · have : ky = kz := (cmpKey_eq_iff _ _).mp h2
          subst this; exact hxy
        · intro hc
          have := cmpKey_trans_gt h1 h2
          rw [hc] at this; cases this

/-! ## Properties of the insertion sort -/

/-- The not-below relation used for the descending order. -/
def keyGE (a b : List Char) : Prop := cmpKey (verKey a) (verKey b) ≠ some .lt

theorem insertDesc_cons (v w : List Char) (ws : List (List Char)) :
    insertDesc v (w :: ws) =
      (match cmpKey (verKey v) (verKey w) with
       | none => none
       | some .gt => some (v :: w :: ws)
       | some .eq => (insertDesc v ws).map (fun r => w :: r)
       | some .lt => (insertDesc v ws).map (fun r => w :: r)) := rfl

theorem insertDesc_cons_none {v w : List Char} (ws : List (List Char))
    (h : cmpKey (verKey v) (verKey w) = none) : insertDesc v (w :: ws) = none := by
  rw [insertDesc_cons, h]

theorem insertDesc_cons_gt {v w : List Char} (ws : List (List Char))
    (h : cmpKey (verKey v) (verKey w) = some .gt) :
    insertDesc v (w :: ws) = some (v :: w :: ws) := by
  rw [insertDesc_cons, h]

theorem insertDesc_cons_eq {v w : List Char} (ws : List (List Char))
    (h : cmpKey (verKey v) (verKey w) = some .eq) :
    insertDesc v (w :: ws) = (insertDesc v ws).map (fun r => w :: r) := by
  rw [insertDesc_cons, h]

theorem insertDesc_cons_lt {v w : List Char} (ws : List (List Char))
    (h : cmpKey (verKey v) (verKey w) = some .lt) :
    insertDesc v (w :: ws) = (insertDesc v ws).map (fun r => w :: r) := by
  rw [insertDesc_cons, h]

theorem insertDesc_mem {v : List Char} {acc r : List (List Char)}
    (h : insertDesc v acc = some r) : ∀ u, u ∈ r ↔ u = v ∨ u ∈ acc := by
  induction acc generalizing r with
  | nil =>
      cases h
      intro u; simp
  | cons w ws ih =>
      intro u
      rcases hc : cmpKey (verKey v) (verKey w) with _ | o
      · rw [insertDesc_cons_none ws hc] at h; cases h
      · cases o
        · rw [insertDesc_cons_lt ws hc] at h
          rcases Option.map_eq_some'.mp h with ⟨r', hr', hrr⟩
          subst hrr
          simp only [List.mem_cons, ih hr' u]
          tauto
        · rw [insertDesc_cons_eq ws hc] at h
          rcases Option.map_eq_some'.mp h with ⟨r', hr', hrr⟩
          subst hrr
          simp only [List.mem_cons, ih hr' u]
          tauto
        · rw [insertDesc_cons_gt ws hc] at h
          cases h
          simp only [List.mem_cons]

/-- Insertion succeeds and preserves sortedness when the inserted element
and the accumulator all come from a pairwise-comparable pool `L`. -/
theorem insertDesc_sorted {L : List (List Char)}
    (HC : ∀ a ∈ L, ∀ b ∈ L, (cmpKey (verKey a) (verKey b)).isSome = true)
    {v : List Char} (hv : v ∈ L) :
    ∀ {acc : List (List Char)}, (∀ w ∈ acc, w ∈ L) → acc.Pairwise keyGE →
      ∃ r, insertDesc v acc = some r ∧ r.Pairwise keyGE := by
  intro acc
  induction acc with
  | nil =>
      intro _ _
      exact ⟨[ v], rfl, by simp⟩
  | cons w ws ih =>
      intro hacc hs
      have hw : w ∈ L := hacc w (List.mem_cons_self w ws)
      have hws : ∀ x ∈ ws, x ∈ L := fun x hx => hacc x (List.mem_cons_of_mem _ hx)
      rw [List.pairwise_cons] at hs
      obtain ⟨hwall, hs'⟩ := hs
      have hd : (cmpKey (verKey v) (verKey w)).isSome = true := HC v hv w hw
      rcases hc : cmpKey (verKey v) (verKey w) with _ | o
      · rw [hc] at hd; cases hd
      · cases o
        · obtain ⟨r', hr', hsr'⟩ := ih hws hs'
          refine ⟨w :: r', ?_, ?_⟩
          · rw [insertDesc_cons_lt ws hc, hr']; rfl
          · rw [List.pairwise_cons]
            refine ⟨?_, hsr'⟩
            intro u hu
            rcases (insertDesc_mem hr' u).mp hu with rfl | hu2
            · intro hcontra
              have hsw := cmpKey_swap hc
              rw [hsw] at hcontra; cases hcontra
            · exact hwall u hu2
        · obtain ⟨r', hr', hsr'⟩ := ih hws hs'
          refine ⟨w :: r', ?_, ?_⟩
          · rw [insertDesc_cons_eq ws hc, hr']; rfl
          · rw [List.pairwise_cons]
            refine ⟨?_, hsr'⟩
            intro u hu
            rcases (insertDesc_mem hr' u).mp hu with rfl | hu2
            · intro hcontra
              have hsw := cmpKey_swap hc
              rw [hsw] at hcontra; cases hcontra
            · exact hwall u hu2
        · refine ⟨v :: w :: ws, insertDesc_cons_gt ws hc, ?_⟩
          rw [List.pairwise_cons]
          constructor
          · intro u hu
            rcases List.mem_cons.mp hu with rfl | hu2
            · intro hcontra; rw [hc] at hcontra; cases hcontra
            · refine key_ge_trans ?_ (hwall u hu2) ?_ (HC w hw u (hws u hu2))
              · intro hcontra; rw [hc] at hcontra; cases hcontra
              · rw [hc]; rfl
          · rw [List.pairwise_cons]
            exact ⟨hwall, hs'⟩

theorem sortDescAux_mem {pending : List (List Char)} :
    ∀ {acc r : List (List Char)}, sortDescAux acc pending = some r →
      ∀ u, u ∈ r ↔ u ∈ acc ∨ u ∈ pending := by
  induction pending with
  | nil =>
      intro acc r h u
      cases h; simp
  | cons v vs ih =>
      intro acc r h u
      rcases hi : insertDesc v acc with _ | acc2
      · rw [sortDescAux, hi] at h; cases h
      · rw [sortDescAux, hi] at h
        rw [ih h u]
        rw [insertDesc_mem hi u]
        simp only [List.mem_cons]
        tauto

theorem sortDescAux_sorted {L : List (List Char)}
    (HC : ∀ a ∈ L, ∀ b ∈ L, (cmpKey (verKey a) (verKey b)).isSome = true) :
    ∀ (pending acc : List (List Char)), (∀ x ∈ pending, x ∈ L) →
      (∀ x ∈ acc, x ∈ L) → acc.Pairwise keyGE →
      ∃ r, sortDescAux acc pending = some r ∧ r.Pairwise keyGE := by
  intro pending
  induction pending with
  | nil =>
      intro acc _ _ hs
      exact ⟨acc, rfl, hs⟩
  | cons v vs ih =>
      intro acc hp hacc hs
      have hv : v ∈ L := hp v (List.mem_cons_self v vs)
      have hvs : ∀ x ∈ vs, x ∈ L := fun x hx => hp x (List.mem_cons_of_mem _ hx)
      obtain ⟨acc2, hi, hsacc2⟩ := insertDesc_sorted HC hv hacc hs
      have hacc2 : ∀ x ∈ acc2, x ∈ L := by
        intro x hx
        rcases (insertDesc_mem hi x).mp hx with rfl | hx2
        · exact hv
        · exact hacc x hx2
      obtain ⟨r, hr, hsr⟩ := ih acc2 hvs hacc2 hsacc2
      refine ⟨r, ?_, hsr⟩
      rw [sortDescAux, hi]
      exact hr

theorem sortDesc_mem {l r : List (List Char)} (h : sortDesc l = some r) :
    ∀ u, u ∈ r ↔ u ∈ l := by
  intro u
  rw [sortDescAux_mem h u]
  simp

theorem sortDesc_sorted {l : List (List Char)}
    (HC : ∀ a ∈ l, ∀ b ∈ l, (cmpKey (verKey a) (verKey b)).isSome = true) :
    ∃ r, sortDesc l = some r ∧ r.Pairwise keyGE := by
  have := sortDescAux_sorted HC l []
    (fun x hx => hx) (by intro x hx; cases hx) (by simp)
  exact this

/-- The head of a sorted nonempty list is not below any member. -/
theorem sorted_headD_ge {r : List (List Char)} (hr : r.Pairwise keyGE) :
    ∀ u ∈ r, keyGE (r.headD []) u := by
  cases r with
  | nil => intro u hu; cases hu
  | cons h t =>
      rw [List.pairwise_cons] at hr
      intro u hu
      rcases List.mem_cons.mp hu with rfl | hu2
      · intro hc
        rw [List.headD_cons, cmpKey_refl] at hc
        cases hc
      · exact hr.1 u hu2

/-- Bridge from the executable pairwise-comparability check. -/
theorem allComparable_spec {l : List (List Char)} (h : allComparable l = true) :
    ∀ a ∈ l, ∀ b ∈ l, (cmpKey (verKey a) (verKey b)).isSome = true := by
  intro a ha b hb
  unfold allComparable at h
  rw [List.all_eq_true] at h
  have := h a ha
  rw [List.all_eq_true] at this
  exact this b hb

/-! ## The decode step never fails with `errors='ignore'` -/

theorem isOkE_map {ε α β : Type} (f : α → β) (x : Except ε α) :
    isOkE (x.map f) = isOkE x := by
  cases x <;> rfl

theorem decodeGo_ignore_isOk :
    ∀ (fuel : Nat) (bytes : List Nat), isOkE (decodeGo DecodeMode.ignore fuel bytes) = true := by
  intro fuel
  induction fuel with
  | zero =>
      intro bytes; cases bytes <;> rfl
  | succ n ih =>
      intro bytes
      cases bytes with
      | nil => rfl
      | cons b rest =>
          rcases h : utf8DecodeOne b rest with _ | ⟨cp, k⟩
          · show isOkE (match utf8DecodeOne b rest with
              | some (cp, k) =>
                  (decodeGo DecodeMode.ignore n (rest.drop k)).map (fun cs => Char.ofNat cp :: cs)
              | none => decodeGo DecodeMode.ignore n (rest.drop (utf8SkipExtra b rest))) = true
            rw [h]
            exact ih _
          · show isOkE (match utf8DecodeOne b rest with
              | some (cp, k) =>
                  (decodeGo DecodeMode.ignore n (rest.drop k)).map (fun cs => Char.ofNat cp :: cs)
              | none => decodeGo DecodeMode.ignore n (rest.drop (utf8SkipExtra b rest))) = true
            rw [h, isOkE_map]
            exact ih _

theorem decode_ignore_ok (bytes : List Nat) :
    decodeUtf8 DecodeMode.ignore bytes = Except.ok (decodedText bytes) := by
  have hok := decodeGo_ignore_isOk bytes.length bytes
  rcases h : decodeUtf8 DecodeMode.ignore bytes with e | s
  · unfold decodeUtf8 at h
    rw [h] at hok
    cases hok
  · rw [decodedText, h]

theorem run_ok_eq (bytes : List Nat) :
    run (Except.ok bytes) = resolveVersions (extractVersions (decodedText bytes)) := by
  show (match decodeUtf8 DecodeMode.ignore bytes with
    | Except.error _ => Except.error (RunError.fetchFailed "UnicodeDecodeError")
    | Except.ok data => resolveVersions (extractVersions data)) = _
  rw [decode_ignore_ok bytes]

/-! ## Resolver case analysis -/

theorem resolveVersions_nil_iff (l : List (List Char)) :
    resolveVersions l = Except.error RunError.noVersionsFound ↔ l = [] := by
  constructor
  · intro h
    by_contra hne
    have hne2 : ¬(l.isEmpty = true) := by
      rw [List.isEmpty_iff]; exact hne
    rw [resolveVersions, if_neg hne2] at h
    rcases hs : sortDesc l.dedup with _ | sorted <;> rw [hs] at h <;> cases h
  · rintro rfl; rfl

theorem resolveVersions_no_fetch (l : List (List Char)) (c : String) :
    resolveVersions l ≠ Except.error (RunError.fetchFailed c) := by
  intro h
  rw [resolveVersions] at h
  split at h
  · cases h
  · rcases hs : sortDesc l.dedup with _ | sorted <;> rw [hs] at h <;> cases h

theorem resolveVersions_ok_shape {l res : List (List Char)}
    (h : resolveVersions l = Except.ok res) :
    ∃ v, res = [ v] ∧ v ∈ l := by
  rw [resolveVersions] at h
  split at h
  · cases h
  · rcases hs : sortDesc l.dedup with _ | sorted <;> rw [hs] at h
    · cases h
    · cases h
      rename_i hne
      have hld : l ≠ [] := by
        intro hc; subst hc; simp at hne
      have hmem : sorted.headD [] ∈ sorted := by
        cases sorted with
        | nil =>
            exfalso
            rcases List.exists_mem_of_ne_nil l hld with ⟨x, hx⟩
            have : x ∈ l.dedup := List.mem_dedup.mpr hx
            have := (sortDesc_mem hs x).mpr this
            cases this
        | cons a t => exact List.mem_cons_self a t
      have : sorted.headD [] ∈ l.dedup := (sortDesc_mem hs _).mp hmem
      exact ⟨sorted.headD [], rfl, List.mem_dedup.mp this⟩

/-! ## Characterizing the `/(v[^/]+)/` search -/

/-- `n` contains a match of `/(v[^/]+)/`: a slash, a `v`, a nonempty run of
non-slash characters, a closing slash. -/
def HasSeg (n : List Char) : Prop :=
  ∃ pre mid post, n = pre ++ '/' :: 'v' :: (mid ++ '/' :: post) ∧ mid ≠ [] ∧ '/' ∉ mid

theorem takeWhile_all_append {p : Char → Bool} {l1 : List Char}
    (h1 : ∀ x ∈ l1, p x = true) {c : Char} (hc : p c = false) (l2 : List Char) :
    (l1 ++ c :: l2).takeWhile p = l1 := by
  induction l1 with
  | nil => simp [List.takeWhile_cons, hc]
  | cons x xs ih =>
      have hx : p x = true := h1 x (List.mem_cons_self x xs)
      simp only [List.cons_append, List.takeWhile_cons, hx, if_true]
      rw [ih (fun y hy => h1 y (List.mem_cons_of_mem _ hy))]

theorem dropWhile_all_append {p : Char → Bool} {l1 : List Char}
    (h1 : ∀ x ∈ l1, p x = true) {c : Char} (hc : p c = false) (l2 : List Char) :
    (l1 ++ c :: l2).dropWhile p = c :: l2 := by
  induction l1 with
  | nil => simp [List.dropWhile_cons, hc]
  | cons x xs ih =>
      have hx : p x = true := h1 x (List.mem_cons_self x xs)
      simp only [List.cons_append, List.dropWhile_cons, hx, if_true]
      exact ih (fun y hy => h1 y (List.mem_cons_of_mem _ hy))

theorem dropWhile_head_false {p : Char → Bool} {l : List Char} {c : Char} {cs : List Char}
    (h : l.dropWhile p = c :: cs) : p c = false := by
  induction l with
  | nil => cases h
  | cons x xs ih =>
      rw [List.dropWhile_cons] at h
      by_cases hx : p x = true
      · rw [if_pos hx] at h; exact ih h
      · rw [if_neg hx] at h
        cases h
        exact eq_false_of_ne_true hx

theorem takeSeg_cons_cons (r : List Char) :
    takeSeg ( '/' :: 'v' :: r) =
      (if (r.takeWhile (fun x => decide (x ≠ '/'))).isEmpty then none
       else if (r.dropWhile (fun x => decide (x ≠ '/'))).isEmpty then none
       else some ( 'v' :: r.takeWhile (fun x => decide (x ≠ '/')))) := by
  simp [takeSeg]

theorem takeSeg_cons_cons_ne {c1 c2 : Char} (r : List Char)
    (h : ¬(c1 = '/' ∧ c2 = 'v')) : takeSeg (c1 :: c2 :: r) = none := by
  simp only [takeSeg, if_neg h]

theorem takeSeg_eq_some_iff (s v : List Char) :
    takeSeg s = some v ↔
      ∃ mid post, s = '/' :: 'v' :: (mid ++ '/' :: post) ∧ mid ≠ [] ∧ '/' ∉ mid ∧
        v = 'v' :: mid := by
  cases s with
  | nil =>
      constructor
      · intro h; cases h
      · rintro ⟨mid, post, h, -, -, -⟩; cases h
  | cons c1 s1 =>
      cases s1 with
      | nil =>
          constructor
          · intro h; cases h
          · rintro ⟨mid, post, h, -, -, -⟩; cases h
      | cons c2 r =>
          by_cases hcv : c1 = '/' ∧ c2 = 'v'
          · obtain ⟨rfl, rfl⟩ := hcv
            rw [takeSeg_cons_cons r]
            by_cases h1 : (r.takeWhile (fun x => decide (x ≠ '/'))).isEmpty
            · rw [if_pos h1]
              constructor
              · intro h; cases h
              · rintro ⟨mid, post, heq, hmid, hnot, -⟩
                exfalso
                injection heq with _ heq2
                injection heq2 with _ heq3
                have hsp : r.takeWhile (fun x => decide (x ≠ '/')) = mid := by
                  rw [heq3]
                  exact takeWhile_all_append
                    (fun x hx => by
                      simp only [decide_eq_true_iff]
                      intro hc; subst hc; exact hnot hx)
                    (by simp) post
                rw [hsp, List.isEmpty_iff] at h1
                exact hmid h1
            · rw [if_neg h1]
              by_cases h2 : (r.dropWhile (fun x => decide (x ≠ '/'))).isEmpty
              · rw [if_pos h2]
                constructor
                · intro h; cases h
                · rintro ⟨mid, post, heq, hmid, hnot, -⟩
                  exfalso
                  injection heq with _ heq2
                  injection heq2 with _ heq3
                  have hdp : r.dropWhile (fun x => decide (x ≠ '/')) = '/' :: post := by
                    rw [heq3]
                    exact dropWhile_all_append
                      (fun x hx => by
                        simp only [decide_eq_true_iff]
                        intro hc; subst hc; exact hnot hx)
                      (by simp) post
                  rw [hdp] at h2
                  cases h2
              · rw [if_neg h2]
                constructor
                · intro h
                  injection h with h
                  subst h
                  rcases hd : r.dropWhile (fun x => decide (x ≠ '/')) with _ | ⟨d0, dtail⟩
                  · rw [hd] at h2; exact absurd rfl h2
                  · have hd0 : d0 = '/' := by
                      have := dropWhile_head_false hd
                      simpa using this
                    subst hd0
                    refine ⟨r.takeWhile (fun x => decide (x ≠ '/')), dtail, ?_, ?_, ?_, rfl⟩
                    · have hsplit := List.takeWhile_append_dropWhile
                        (p := fun x => decide (x ≠ '/')) (l := r)
                      rw [hd] at hsplit
                      rw [hsplit]
                    · intro hc; rw [hc] at h1; exact h1 rfl
                    · intro hc
                      have := List.mem_takeWhile_imp hc
                      simp at this
                · rintro ⟨mid, post, heq, hmid, hnot, rfl⟩
                  injection heq with _ heq2
                  injection heq2 with _ heq3
                  have hsp : r.takeWhile (fun x => decide (x ≠ '/')) = mid := by
                    rw [heq3]
                    exact takeWhile_all_append
                      (fun x hx => by
                        simp only [decide_eq_true_iff]
                        intro hc; subst hc; exact hnot hx)
                      (by simp) post
                  rw [hsp]
          · rw [takeSeg_cons_cons_ne r hcv]
            constructor
            · intro h; cases h
            · rintro ⟨mid, post, heq, -, -, -⟩
              injection heq with hh1 heq2
              injection heq2 with hh2 _
              exact absurd ⟨hh1, hh2⟩ hcv

theorem searchSeg_cons (c : Char) (rest : List Char) :
    searchSeg (c :: rest) =
      (match takeSeg (c :: rest) with
       | some v => some v
       | none => searchSeg rest) := rfl

theorem searchSeg_none_iff (n : List Char) : searchSeg n = none ↔ ¬ HasSeg n := by
  induction n with
  | nil =>
      constructor
      · rintro - ⟨pre, mid, post, h, -, -⟩
        cases pre <;> cases h
      · intro _; rfl
  | cons c rest ih =>
      rcases ht : takeSeg (c :: rest) with _ | v
      · rw [searchSeg_cons, ht, ih]
        apply not_congr
        constructor
        · rintro ⟨pre, mid, post, heq, hmid, hnot⟩
          exact ⟨c :: pre, mid, post, by rw [List.cons_append, heq], hmid, hnot⟩
        · rintro ⟨pre, mid, post, heq, hmid, hnot⟩
          cases pre with
          | nil =>
              exfalso
              have : takeSeg (c :: rest) = some ( 'v' :: mid) :=
                (takeSeg_eq_some_iff _ _).mpr ⟨mid, post, heq, hmid, hnot, rfl⟩
              rw [ht] at this; cases this
          | cons p ps =>
              injection heq with _ heq2
              exact ⟨ps, mid, post, heq2, hmid, hnot⟩
      · rw [searchSeg_cons, ht]
        constructor
        · intro h; cases h
        · intro h
          exfalso
          obtain ⟨mid, post, heq, hmid, hnot, -⟩ := (takeSeg_eq_some_iff _ _).mp ht
          exact h ⟨[], mid, post, heq, hmid, hnot⟩

/-- The search returns the capture of the leftmost match: a decomposition
whose preamble is no longer than that of any other match. -/
theorem searchSeg_first {n v : List Char} (h : searchSeg n = some v) :
    ∃ pre mid post, n = pre ++ '/' :: 'v' :: (mid ++ '/' :: post) ∧ mid ≠ [] ∧
      '/' ∉ mid ∧ v = 'v' :: mid ∧
      ∀ pre2 mid2 post2, n = pre2 ++ '/' :: 'v' :: (mid2 ++ '/' :: post2) →
        mid2 ≠ [] → '/' ∉ mid2 → pre.length ≤ pre2.length := by
  induction n with
  | nil => cases h
  | cons c rest ih =>
      rcases ht : takeSeg (c :: rest) with _ | w
      · rw [searchSeg_cons, ht] at h
        obtain ⟨pre, mid, post, heq, hmid, hnot, hv, hmin⟩ := ih h
        refine ⟨c :: pre, mid, post, by rw [List.cons_append, heq], hmid, hnot, hv, ?_⟩
        intro pre2 mid2 post2 heq2 hmid2 hnot2
        cases pre2 with
        | nil =>
            exfalso
            have : takeSeg (c :: rest) = some ( 'v' :: mid2) :=
              (takeSeg_eq_some_iff _ _).mpr ⟨mid2, post2, heq2, hmid2, hnot2, rfl⟩
            rw [ht] at this; cases this
        | cons p ps =>
            simp only [List.length_cons]
            injection heq2 with _ heq3
            exact Nat.succ_le_succ (hmin ps mid2 post2 heq3 hmid2 hnot2)
      · rw [searchSeg_cons, ht] at h
        cases h
        obtain ⟨mid, post, heq, hmid, hnot, hw⟩ := (takeSeg_eq_some_iff _ _).mp ht
        exact ⟨[], mid, post, heq, hmid, hnot, hw,
          fun _ _ _ _ _ _ => Nat.zero_le _⟩

/-- Every successful extraction has the shape `v` + nonempty slash-free run. -/
theorem searchSeg_shape {n v : List Char} (h : searchSeg n = some v) :
    ∃ mid, v = 'v' :: mid ∧ mid ≠ [] ∧ '/' ∉ mid := by
  obtain ⟨-, mid, -, -, hmid, hnot, hv, -⟩ := searchSeg_first h
  exact ⟨mid, hv, hmid, hnot⟩

/-! ## The claims -/

/-- C1, counterexample: a fetched listing whose two names both embed a
`/v.../` segment (`a/v0/b` and `a/vx/c`) makes `resolve()` fail with a
`TypeError` at comparison time instead of succeeding, because the extracted
keys mix an integer token (`0`) with a string token (`x`). -/
theorem c1_cex :
    extractVersions (decodedText (bytesOf c1Bad)) = [ "v0".toList, "vx".toList] ∧
    run (Except.ok (bytesOf c1Bad)) = Except.error RunError.typeError :=
  ⟨rfl, rfl⟩

/-- C1, amended: for every fetched listing body with at least one extracted
version string whose deduplicated keys are pairwise comparable, `resolve()`
succeeds and returns an extracted VersionString whose tokenized key is
maximal under the key ordering. -/
theorem c1_max_of_comparable (bytes : List Nat)
    (h1 : extractVersions (decodedText bytes) ≠ [])
    (h2 : allComparable (extractVersions (decodedText bytes)).dedup = true) :
    ∃ v, run (Except.ok bytes) = Except.ok [ v] ∧
      v ∈ extractVersions (decodedText bytes) ∧
      ∀ w ∈ extractVersions (decodedText bytes),
        cmpKey (verKey w) (verKey v) ≠ some .gt := by
  set l := extractVersions (decodedText bytes) with hl
  have HC := allComparable_spec h2
  obtain ⟨r, hr, hsr⟩ := sortDesc_sorted HC
  have hne : ¬(l.isEmpty = true) := by rw [List.isEmpty_iff]; exact h1
  have hres : resolveVersions l = Except.ok [ r.headD []] := by
    rw [resolveVersions, if_neg hne, hr]
  have hrne : r ≠ [] := by
    obtain ⟨x, hx⟩ := List.exists_mem_of_ne_nil l h1
    intro hc; subst hc
    have := (sortDesc_mem hr x).mpr (List.mem_dedup.mpr hx)
    cases this
  have hmem : r.headD [] ∈ r := by
    cases r with
    | nil => exact absurd rfl hrne
    | cons a t => exact List.mem_cons_self a t
  have hmemd : r.headD [] ∈ l.dedup := (sortDesc_mem hr _).mp hmem
  refine ⟨r.headD [], ?_, List.mem_dedup.mp hmemd, ?_⟩
  · rw [run_ok_eq bytes, ← hl, hres]
  · intro w hw
    have hwd : w ∈ l.dedup := List.mem_dedup.mpr hw
    have hwr : w ∈ r := (sortDesc_mem hr w).mpr hwd
    have hge : keyGE (r.headD []) w := sorted_headD_ge hsr w hwr
    have hd : (cmpKey (verKey (r.headD [])) (verKey w)).isSome = true :=
      HC _ hmemd _ hwd
    rcases hcmp : cmpKey (verKey (r.headD [])) (verKey w) with _ | o
    · rw [hcmp] at hd; cases hd
    · cases o
      · exact absurd hcmp hge
      · intro hc
        have := cmpKey_swap hc
        rw [hcmp] at this; cases this
      · intro hc
        have := cmpKey_swap hc
        rw [hcmp] at this; cases this

/-- C1, witness: on the listing with names `a/v2.1/b` and `a/v2.0/c` the
hypotheses hold and the resolver picks a maximal extracted version. -/
theorem c1_witness :
    extractVersions (decodedText (bytesOf c1Good)) ≠ [] ∧
    allComparable (extractVersions (decodedText (bytesOf c1Good))).dedup = true ∧
    ∃ v, run (Except.ok (bytesOf c1Good)) = Except.ok [ v] ∧
      v ∈ extractVersions (decodedText (bytesOf c1Good)) ∧
      ∀ w ∈ extractVersions (decodedText (bytesOf c1Good)),
        cmpKey (verKey w) (verKey v) ≠ some .gt :=
  ⟨by decide, by decide, c1_max_of_comparable (bytesOf c1Good) (by decide) (by decide)⟩

/-- C2, counterexample: the key comparison is not total: comparing the keys
of `v1.rc` and `v1.0` is undefined (integer vs. string at the same
position), and `resolve()` does fail at comparison time on a listing
containing both. -/
theorem c2_cex :
    cmpKey (verKey ( "v1.rc".toList)) (verKey ( "v1.0".toList)) = none ∧
    run (Except.ok (bytesOf c2Bad)) = Except.error RunError.typeError :=
  ⟨rfl, rfl⟩

/-- C2, amended: whenever all pairs of deduplicated extracted keys are
comparable (same token type at each deciding position), `resolve()` does
not fail at comparison time. -/
theorem c2_comparable_safe (bytes : List Nat)
    (h : allComparable (extractVersions (decodedText bytes)).dedup = true) :
    run (Except.ok bytes) ≠ Except.error RunError.typeError := by
  rw [run_ok_eq bytes]
  set l := extractVersions (decodedText bytes)
  by_cases hne : l.isEmpty = true
  · rw [resolveVersions, if_pos hne]
    intro hc; cases hc
  · obtain ⟨r, hr, -⟩ := sortDesc_sorted (allComparable_spec h)
    rw [resolveVersions, if_neg hne, hr]
    intro hc; cases hc

/-- C2, witness: an all-numeric listing satisfies the comparability
hypothesis and never hits the comparison failure. -/
theorem c2_witness :
    allComparable (extractVersions (decodedText (bytesOf c2Good))).dedup = true ∧
    run (Except.ok (bytesOf c2Good)) ≠ Except.error RunError.typeError :=
  ⟨by decide, c2_comparable_safe (bytesOf c2Good) (by decide)⟩

/-- C3: `resolve()` fails with the no-versions error exactly when the fetch
(and the always-successful decode) produced a body from which zero version
strings were extracted; with at least one extraction this error cannot
occur. -/
theorem c3_no_versions_iff (f : Except String (List Nat)) :
    run f = Except.error RunError.noVersionsFound ↔
      ∃ bytes, f = Except.ok bytes ∧ extractVersions (decodedText bytes) = [] := by
  cases f with
  | error c =>
      constructor
      · intro h
        rw [show run (Except.error c) = Except.error (RunError.fetchFailed c) from rfl] at h
        simp at h
      · rintro ⟨bytes, hb, -⟩; cases hb
  | ok bytes =>
      rw [run_ok_eq bytes]
      constructor
      · intro h
        exact ⟨bytes, rfl, (resolveVersions_nil_iff _).mp h⟩
      · rintro ⟨bytes2, hb, hext⟩
        injection hb with hb2
        subst hb2
        exact (resolveVersions_nil_iff _).mpr hext

/-- C3, witness: a fetched body with a `"count"` field but no `"name"`
field yields the no-versions error. -/
theorem c3_witness :
    run (Except.ok (bytesOf c3Empty)) = Except.error RunError.noVersionsFound :=
  (c3_no_versions_iff (Except.ok (bytesOf c3Empty))).mpr ⟨bytesOf c3Empty, rfl, by decide⟩

/-- C4: every transport failure is surfaced as the fetch error whose
message appends the underlying cause, and the run performs nothing else. -/
theorem c4_fetch_error (cause : String) :
    run (Except.error cause) = Except.error (RunError.fetchFailed cause) ∧
    errMessage (RunError.fetchFailed cause) = "Failed to fetch versions: " ++ cause :=
  ⟨rfl, rfl⟩

/-- C4, witness: a concrete timeout message propagates. -/
theorem c4_witness :
    run (Except.error "timed out") = Except.error (RunError.fetchFailed "timed out") ∧
    errMessage (RunError.fetchFailed "timed out") = "Failed to fetch versions: timed out" :=
  c4_fetch_error "timed out"

/-- C5: on the three-name listing of the spec, `resolve()` returns
`v0.3.10`, and the key of `v0.3.10` compares above the key of `v0.3.9`
(numeric, not lexicographic, token comparison). -/
theorem c5_numeric_order :
    run (Except.ok (bytesOf c5Body)) = Except.ok [ "v0.3.10".toList] ∧
    cmpKey (verKey ( "v0.3.10".toList)) (verKey ( "v0.3.9".toList)) = some .gt :=
  ⟨rfl, rfl⟩

/-- C6: a version occurring anywhere in the candidate list occurs exactly
once after deduplication, and the resolver's result only depends on the
deduplicated candidates, so the multiplicity never affects the outcome. -/
theorem c6_dedup_invariant (l : List (List Char)) (x : List Char) (h : x ∈ l) :
    (x ∈ l.dedup ∧ l.dedup.Nodup) ∧ resolveVersions l = resolveVersions l.dedup := by
  constructor
  · exact ⟨List.mem_dedup.mpr h, List.nodup_dedup l⟩
  · by_cases hne : l.isEmpty = true
    · rw [List.isEmpty_iff] at hne
      subst hne; cases h
    · have hdne : ¬(l.dedup.isEmpty = true) := by
        rw [List.isEmpty_iff, List.dedup_eq_nil]
        rw [List.isEmpty_iff] at hne
        exact hne
      rw [resolveVersions, resolveVersions, if_neg hne, if_neg hdne,
        (List.nodup_dedup l).dedup]

/-- C6, witness: the duplicated singleton listing collapses to one
candidate with an unchanged result. -/
theorem c6_witness :
    ( "v1".toList) ∈ [ "v1".toList, "v1".toList] ∧
    ((( "v1".toList) ∈ [ "v1".toList, "v1".toList].dedup ∧
        [ "v1".toList, "v1".toList].dedup.Nodup) ∧
      resolveVersions [ "v1".toList, "v1".toList] =
        resolveVersions [ "v1".toList, "v1".toList].dedup) :=
  ⟨by decide, c6_dedup_invariant [ "v1".toList, "v1".toList] ( "v1".toList) (by decide)⟩

/-- C7: the key ordering treats a strict key extension as strictly greater
(shorter-is-less-if-prefix), and concretely the listing holding `v1.0.0`
and `v1.0.0-rc1` resolves to `v1.0.0-rc1`. -/
theorem c7_longer_key_greater :
    (∀ (k ext : List Tok), ext ≠ [] →
      cmpKey k (k ++ ext) = some .lt ∧ cmpKey (k ++ ext) k = some .gt) ∧
    run (Except.ok (bytesOf c7Body)) = Except.ok [ "v1.0.0-rc1".toList] := by
  constructor
  · intro k ext hne
    induction k with
    | nil =>
        cases ext with
        | nil => exact absurd rfl hne
        | cons e es => exact ⟨rfl, rfl⟩
    | cons t ts ih =>
        obtain ⟨ih1, ih2⟩ := ih
        constructor
        · rw [List.cons_append, cmpKey_cons_eqtok _ _ (cmpTok_refl t)]
          exact ih1
        · rw [List.cons_append, cmpKey_cons_eqtok _ _ (cmpTok_refl t)]
          exact ih2
  · rfl

/-- C7, witness: the keys of `v1.0.0` and `v1.0.0-rc1` instantiate the
prefix rule. -/
theorem c7_witness :
    cmpKey (verKey ( "v1.0.0".toList)) (verKey ( "v1.0.0-rc1".toList)) = some .lt ∧
    cmpKey (verKey ( "v1.0.0-rc1".toList)) (verKey ( "v1.0.0".toList)) = some .gt := by
  have h := c7_longer_key_greater.1
    [ Tok.num 1, Tok.num 0, Tok.num 0] [ Tok.str ( "rc1".toList)] (by decide)
  exact ⟨h.1, h.2⟩

/-- C8: the per-name search returns `none` exactly when no `/v<run>/`
segment exists; a successful search returns `v` plus the nonempty slash
free run of the leftmost such segment (minimal preamble); and names without
a segment contribute nothing to the extraction, without error. -/
theorem c8_first_segment (n : List Char) :
    (searchSeg n = none ↔
      ¬ ∃ pre mid post, n = pre ++ '/' :: 'v' :: (mid ++ '/' :: post) ∧ mid ≠ [] ∧
        '/' ∉ mid) ∧
    (∀ v, searchSeg n = some v →
      ∃ pre mid post, n = pre ++ '/' :: 'v' :: (mid ++ '/' :: post) ∧ mid ≠ [] ∧
        '/' ∉ mid ∧ v = 'v' :: mid ∧
        ∀ pre2 mid2 post2, n = pre2 ++ '/' :: 'v' :: (mid2 ++ '/' :: post2) →
          mid2 ≠ [] → '/' ∉ mid2 → pre.length ≤ pre2.length) ∧
    (searchSeg n = none → ∀ names1 names2 : List (List Char),
      (names1 ++ n :: names2).filterMap searchSeg =
        (names1 ++ names2).filterMap searchSeg) := by
  refine ⟨searchSeg_none_iff n, fun v h => searchSeg_first h, ?_⟩
  intro h names1 names2
  rw [List.filterMap_append, List.filterMap_append]
  congr 1
  simp only [List.filterMap_cons, h]

/-- C8, witness: a name without any `/v.../` segment is silently skipped in
the extraction. -/
theorem c8_witness :
    searchSeg ( "noversion".toList) = none ∧
    ([ "a/v1/b".toList] ++ ( "noversion".toList) :: [ "c/v2/d".toList]).filterMap searchSeg =
      ([ "a/v1/b".toList] ++ [ "c/v2/d".toList]).filterMap searchSeg :=
  ⟨rfl, (c8_first_segment ( "noversion".toList)).2.2 rfl [ "a/v1/b".toList] [ "c/v2/d".toList]⟩

/-- C9: decoding with `errors='ignore'` succeeds on every byte sequence, so
`resolve()` never fails at the decode step (equivalently, a successful
fetch can never surface the fetch-failure error, whose only other source
inside the `try` block would be a decode exception). -/
theorem c9_decode_total (bytes : List Nat) (cause : String) :
    isOkE (decodeUtf8 DecodeMode.ignore bytes) = true ∧
    run (Except.ok bytes) ≠ Except.error (RunError.fetchFailed cause) := by
  refine ⟨decodeGo_ignore_isOk bytes.length bytes, ?_⟩
  rw [run_ok_eq bytes]
  exact resolveVersions_no_fetch _ cause

/-- C9, witness: the invalid bytes `FF` and `E2 28` decode by skipping. -/
theorem c9_witness :
    isOkE (decodeUtf8 DecodeMode.ignore c9Bytes) = true ∧
    run (Except.ok c9Bytes) ≠ Except.error (RunError.fetchFailed "boom") :=
  c9_decode_total c9Bytes "boom"

/-- C10: whenever the run succeeds its value is a singleton list whose sole
element is one of the extracted version strings, hence starts with `v` and
contains no slash. -/
theorem c10_result_membership (f : Except String (List Nat)) (res : List (List Char))
    (h : run f = Except.ok res) :
    ∃ bytes v, f = Except.ok bytes ∧ res = [ v] ∧
      v ∈ extractVersions (decodedText bytes) ∧ v.head? = some 'v' ∧ '/' ∉ v := by
  cases f with
  | error c =>
      rw [show run (Except.error c) = Except.error (RunError.fetchFailed c) from rfl] at h
      cases h
  | ok bytes =>
      rw [run_ok_eq bytes] at h
      obtain ⟨v, hres, hmem⟩ := resolveVersions_ok_shape h
      have hmem2 := hmem
      rw [extractVersions] at hmem2
      obtain ⟨n, -, hsn⟩ := List.mem_filterMap.mp hmem2
      obtain ⟨mid, hv, -, hnotin⟩ := searchSeg_shape hsn
      refine ⟨bytes, v, rfl, hres, hmem, ?_, ?_⟩
      · rw [hv]; rfl
      · rw [hv]
        intro hc
        rcases List.mem_cons.mp hc with h1 | h2
        · cases h1
        · exact hnotin h2

/-- C10, witness: a successful concrete run instantiates the invariant. -/
theorem c10_witness :
    run (Except.ok (bytesOf c10Body)) = Except.ok [ "v4.2".toList] ∧
    ∃ bytes v, (Except.ok (bytesOf c10Body) : Except String (List Nat)) = Except.ok bytes ∧
      ([ "v4.2".toList] : List (List Char)) = [ v] ∧
      v ∈ extractVersions (decodedText bytes) ∧ v.head? = some 'v' ∧ '/' ∉ v :=
  ⟨rfl, c10_result_membership (Except.ok (bytesOf c10Body)) [ "v4.2".toList] (by rfl)⟩

end GlVersion
